import Mathlib

/-!
# Verification of the SQLEngine relational operators and the TPC-H Q5 pipeline

Shallow embedding of the C++ sources `include/queryclauses.hpp`,
`include/sqlhelper.hpp` and `src/query5.cpp`.

* A C++ `Row` is `std::map<std::string, std::string>`: we model it as an
  association list `List (String × String)`.  `std::map` iterates in
  strictly ascending key order and holds at most one entry per key; every
  concrete row below is written in ascending key order, and theorems that
  depend on key uniqueness carry it as an explicit hypothesis.
* A C++ `Table` is `std::vector<Row>`: modelled as `List Row`.
* `double` values are modelled as `ℚ`; `std::stod` is modelled by the
  prefix parser `stod?` below (returns `none` exactly when no initial
  conversion is possible, mirroring the `std::invalid_argument` throw).
* Code that can throw (`std::map::at` on a missing key, `std::stod` on
  non-numeric text) is modelled with `Option`: `none` is the thrown
  exception propagating out of the operator.
-/

namespace SQLEngine

/-- A table row: the association list view of `std::map<std::string, std::string>`. -/
abbrev Row : Type := List (String × String)

/-- A table: `std::vector<Row>`. -/
abbrev Table : Type := List Row

/-- The `row.find(k)` / `row.at(k)` combined: first binding of key `k`, if any.
On the sorted duplicate-free lists that model `std::map` this is the map lookup. -/
def rowFind? (row : Row) (k : String) : Option String :=
  match row with
  | [] => none
  | (k', v) :: rest => if k = k' then some v else rowFind? rest k

/-- The `row.find(k) != row.end()` as a Bool. -/
def rowHas (row : Row) (k : String) : Bool :=
  (rowFind? row k).isSome

/-- The `std::string` `operator<`: lexicographic comparison, character-wise.
Stated on the character lists so that it evaluates inside the kernel. -/
def strLt (a b : String) : Bool := decide (a.data < b.data)

/-- The `std::string` `operator<=`. -/
def strLe (a b : String) : Bool := decide (a.data ≤ b.data)

/-- The `merged_row[k] = v` on a sorted association list: the `std::map`
insert-or-assign of `operator[]` followed by assignment. -/
def rowInsert (row : Row) (k : String) (v : String) : Row :=
  match row with
  | [] => [(k, v)]
  | (k', v') :: rest =>
    if strLt k k' then (k, v) :: (k', v') :: rest
    else if k = k' then (k, v) :: rest
    else (k', v') :: rowInsert rest k v

/-- The row-merge every join performs:
`Row merged_row = left_row; for (const auto& [k, v] : right_row) merged_row[k] = v;`. -/
def mergeRows (left_row right_row : Row) : Row :=
  right_row.foldl (fun acc kv => rowInsert acc kv.1 kv.2) left_row

/-- The `WHERE` (`queryclauses.hpp` line 64 and `sqlhelper.hpp` line 24):
keep the rows on which the predicate holds, in order. -/
def WHERE (table : Table) (predicate : Row → Bool) : Table :=
  table.filter predicate

/-- The `EQUALS` predicate builder (`queryclauses.hpp` line 514, `sqlhelper.hpp` line 127):
`row.find(column) != row.end() && row.at(column) == value`. -/
def EQUALS (column value : String) : Row → Bool :=
  fun row =>
    match rowFind? row column with
    | some v => v == value
    | none => false

/-- The `JOIN_ON` (`queryclauses.hpp` line 574, `sqlhelper.hpp` line 146):
both sides carry their join column and the values agree. -/
def JOIN_ON (left_column right_column : String) : Row → Row → Bool :=
  fun left right =>
    match rowFind? left left_column, rowFind? right right_column with
    | some a, some b => a == b
    | _, _ => false

/-- Nested-loop `INNER_JOIN` (`queryclauses.hpp` lines 124-140): for every left
row, scan all right rows in order; on a match emit the merged row. -/
def INNER_JOIN (left_table right_table : Table) (join_condition : Row → Row → Bool) :
    Table :=
  left_table.flatMap fun left_row =>
    (right_table.filter (join_condition left_row)).map (mergeRows left_row)

/-- The `LEFT_JOIN` (`queryclauses.hpp` lines 146-167): like `INNER_JOIN` but a left
row with no match is emitted verbatim. -/
def LEFT_JOIN (left_table right_table : Table) (join_condition : Row → Row → Bool) :
    Table :=
  left_table.flatMap fun left_row =>
    let matched := (right_table.filter (join_condition left_row)).map (mergeRows left_row)
    if matched.isEmpty then [left_row] else matched

/-- The `CROSS_JOIN` (`queryclauses.hpp` lines 173-185): merge every pair. -/
def CROSS_JOIN (left_table right_table : Table) : Table :=
  left_table.flatMap fun left_row => right_table.map (mergeRows left_row)

/-- The hash-join build phase (`sqlhelper.hpp` lines 41-46) materialises
`std::map<std::string, std::vector<size_t>> right_index`; looking a key up
yields the indices (pushed in ascending order) of the right rows that carry
`right_column` with that exact value.  `base` is the index of the first row of
`rows` inside the full right table. -/
def buildIndexAux (rows : List Row) (right_column key : String) (base : Nat) :
    List Nat :=
  match rows with
  | [] => []
  | row :: rest =>
    if rowFind? row right_column == some key
    then base :: buildIndexAux rest right_column key (base + 1)
    else buildIndexAux rest right_column key (base + 1)

/-- The probe step for one left row (`sqlhelper.hpp` lines 55-70): skip the row
if it lacks the join column, otherwise emit one merged row per index stored in
the shared hash index under its key, dereferencing `right_table[right_idx]`. -/
def probeRow (right_table : Table) (left_column right_column : String)
    (left_row : Row) : List Row :=
  match rowFind? left_row left_column with
  | none => []
  | some key =>
    (buildIndexAux right_table right_column key 0).map
      (fun i => mergeRows left_row (right_table.getD i []))

/-- The concurrent hash `INNER_JOIN` of `sqlhelper.hpp` lines 36-91.
`chunk_size = (left.size() + num_threads - 1) / num_threads`; worker `i`
processes left indices `[i*chunk_size, i*chunk_size + chunk_size) ∩ [0, |left|)`
into a private buffer, and the buffers are concatenated in worker-index order.
The thread schedule never influences the output (each buffer is private and the
index is read-only), so the function below is the exact denotation of the run. -/
def INNER_JOIN_HASH (left_table right_table : Table)
    (left_column right_column : String) (num_threads : Nat) : Table :=
  let chunk_size := (left_table.length + num_threads - 1) / num_threads
  (List.range num_threads).flatMap fun i =>
    ((left_table.drop (i * chunk_size)).take chunk_size).flatMap
      (probeRow right_table left_column right_column)

/-! ## DISTINCT (`queryclauses.hpp` lines 439-456) -/

/-- The string representation `DISTINCT` builds for a row:
`row_str += key + ":" + value + "|"` over the `std::map` iteration
(ascending key order — the association-list order of our model rows). -/
def encodeRow (row : Row) : String :=
  row.foldl (fun acc kv => acc ++ kv.1 ++ ":" ++ kv.2 ++ "|") ""

/-- The `DISTINCT` loop with its `std::set<std::string> seen` accumulator. -/
def distinctAux (seen : List String) : Table → Table
  | [] => []
  | row :: rest =>
    if seen.contains (encodeRow row) then distinctAux seen rest
    else row :: distinctAux (encodeRow row :: seen) rest

/-- The `DISTINCT`: keep a row iff its string representation was not seen before. -/
def DISTINCT (table : Table) : Table := distinctAux [] table

/-- Reference function for the amended C3, written from the amended spec words:
keep the first occurrence of each row, where two rows count as duplicates
precisely when their serialized encodings are equal. -/
def keepFirstByEnc : Table → Table
  | [] => []
  | row :: rest =>
    row :: keepFirstByEnc (rest.filter fun r => !(encodeRow r == encodeRow row))
termination_by t => t.length
decreasing_by
  simp only [List.length_cons]
  exact Nat.lt_succ_of_le (List.length_filter_le _ _)

/-! ## ORDER BY (`queryclauses.hpp` lines 338-356)

`ORDER_BY_ASC` / `ORDER_BY_DESC` call `std::sort` with the comparator
`a.at(column) < b.at(column)` (resp. `>`).  `std::sort` guarantees only that
the output is a permutation of the input that is sorted with respect to the
comparator; the relative order of equivalent elements is unspecified.  We
therefore model each operator by its contract: the set of outputs the standard
permits.  (`at` throws when the column is absent; rows in the theorems below
carry the sort column, and `rowAt` totalises the lookup with `""`.) -/

/-- The `row.at(column)`, totalised with `""` for the model (the C++ call throws
`std::out_of_range` when the column is absent). -/
def rowAt (row : Row) (column : String) : String := (rowFind? row column).getD ""

/-- The `std::sort` contract for `ORDER_BY_ASC(table, column)`: `output` is one
of the permitted results. -/
def sortSpecAsc (column : String) (input output : Table) : Prop :=
  output.Perm input ∧
  output.Chain' (fun a b => strLt (rowAt b column) (rowAt a column) = false)

/-- The `std::sort` contract for `ORDER_BY_DESC(table, column)` (text order). -/
def sortSpecDesc (column : String) (input output : Table) : Prop :=
  output.Perm input ∧
  output.Chain' (fun a b => strLt (rowAt a column) (rowAt b column) = false)

/-- Stability of `output` w.r.t. `input` on the sort column: the subsequence of
rows holding any fixed key value is unchanged. -/
def stableFor (column : String) (input output : Table) : Prop :=
  ∀ key : String,
    output.filter (fun r => rowAt r column == key) =
      input.filter (fun r => rowAt r column == key)

/-! ## `std::stod` model

`std::stod` skips leading whitespace, consumes an optional sign, then the
longest prefix of the form `digits[.digits][e|E[sign]digits]`; it throws
`std::invalid_argument` (here: `none`) iff no conversion could be performed,
i.e. iff no mantissa digit was consumed.  The parsed value is modelled in `ℚ`
(hex floats, `inf`/`nan` and the `double` range/rounding are not modelled; no
claim below depends on them). -/

/-- C `isspace` (default locale). -/
def isSpaceC (c : Char) : Bool :=
  c == ' ' || c == '\t' || c == '\n' || c == '\r' ||
    c == Char.ofNat 11 || c == Char.ofNat 12

/-- Decimal value of a digit string (most significant first). -/
def digitsToNat (ds : List Char) : Nat :=
  ds.foldl (fun a c => a * 10 + (c.toNat - 48)) 0

/-- Optional leading sign of the mantissa. -/
def splitSign (cs : List Char) : Int × List Char :=
  match cs with
  | c :: rest =>
    if c == '-' then (-1, rest) else if c == '+' then ((1 : Int), rest) else ((1 : Int), cs)
  | [] => ((1 : Int), cs)

/-- Optional leading sign of the exponent. -/
def splitSignInt (cs : List Char) : Int × List Char :=
  match cs with
  | c :: rest =>
    if c == '-' then (-1, rest) else if c == '+' then ((1 : Int), rest) else ((1 : Int), cs)
  | [] => ((1 : Int), cs)

/-- Fractional part: digits after a `'.'`, if present. -/
def splitFrac (cs : List Char) : List Char × List Char :=
  match cs with
  | '.' :: r => (r.takeWhile Char.isDigit, r.dropWhile Char.isDigit)
  | _ => ([], cs)

/-- Exponent part: `e`/`E`, optional sign, digits; an `e` not followed by a
digit contributes exponent `0` (the mantissa alone is converted). -/
def parseExp (cs : List Char) : Int :=
  match cs with
  | c :: rest =>
    if c == 'e' || c == 'E' then
      let q := splitSignInt rest
      let ed := q.2.takeWhile Char.isDigit
      if ed.isEmpty then 0 else q.1 * (digitsToNat ed : Int)
    else 0
  | [] => 0

/-- The conversion performed after whitespace skipping.  The value
`sign * (ip + frac / 10^|frac|) * 10^exp` is assembled with integer
arithmetic and `mkRat` (so that it evaluates); it is the same rational. -/
def stodCore (cs : List Char) : Option ℚ :=
  let s := splitSign cs
  let ip := s.2.takeWhile Char.isDigit
  let f := splitFrac (s.2.dropWhile Char.isDigit)
  if ip.isEmpty && f.1.isEmpty then none
  else
    let mantNum : Int := s.1 * (digitsToNat ip * 10 ^ f.1.length + digitsToNat f.1)
    let e := parseExp f.2
    if 0 ≤ e then some (mkRat (mantNum * 10 ^ e.toNat) (10 ^ f.1.length))
    else some (mkRat mantNum (10 ^ f.1.length * 10 ^ (-e).toNat))

/-- The `std::stod`: `none` models the `std::invalid_argument` throw. -/
def stod? (str : String) : Option ℚ :=
  stodCore (str.data.dropWhile isSpaceC)

/-! ## Aggregates (`queryclauses.hpp` lines 235-306, `sqlhelper.hpp` lines 106-114) -/

/-- The `SUM` accumulation loop: `sum += std::stod(row.at(column))` over the
rows that carry the column; `none` models the `std::stod` throw escaping the
loop (absent fields are passed over, contributing `0` to the total). -/
def sumAux : Table → String → ℚ → Option ℚ
  | [], _, acc => some acc
  | row :: rest, column, acc =>
    match rowFind? row column with
    | none => sumAux rest column acc
    | some v =>
      match stod? v with
      | none => none
      | some x => sumAux rest column (acc + x)

/-- The `SUM(group, column)` with accumulator started at `0.0`. -/
def SUM (group : Table) (column : String) : Option ℚ := sumAux group column 0

/-- The `MAX` scan: skip rows lacking the column, compare parsed values. -/
def maxLoop : Table → String → ℚ → Option ℚ
  | [], _, m => some m
  | row :: rest, column, m =>
    match rowFind? row column with
    | none => maxLoop rest column m
    | some v =>
      match stod? v with
      | none => none
      | some x => maxLoop rest column (if x > m then x else m)

/-- The `MAX(group, column)`: `0.0` on an empty group; otherwise the running value
is seeded by `std::stod(group[0].at(column))` — `group[0].at(column)` throws
(`none`) when the first row lacks the column — and the loop then scans the
whole group (the first row again included). -/
def MAX (group : Table) (column : String) : Option ℚ :=
  match group with
  | [] => some 0
  | first :: _ =>
    match rowFind? first column with
    | none => none
    | some v =>
      match stod? v with
      | none => none
      | some seed => maxLoop group column seed

/-- The `MIN` scan. -/
def minLoop : Table → String → ℚ → Option ℚ
  | [], _, m => some m
  | row :: rest, column, m =>
    match rowFind? row column with
    | none => minLoop rest column m
    | some v =>
      match stod? v with
      | none => none
      | some x => minLoop rest column (if x < m then x else m)

/-- The `MIN(group, column)`, structured exactly like `MAX`. -/
def MIN (group : Table) (column : String) : Option ℚ :=
  match group with
  | [] => some 0
  | first :: _ =>
    match rowFind? first column with
    | none => none
    | some v =>
      match stod? v with
      | none => none
      | some seed => minLoop group column seed

/-! ## GROUP BY (`queryclauses.hpp` lines 196-205, `sqlhelper.hpp` lines 94-103) -/

/-- The `groups[key].push_back(row)` on the sorted association list modelling
`std::map<std::string, Table>`: find or create the group for `key` and append
`row` at its end. -/
def groupInsert : List (String × Table) → String → Row → List (String × Table)
  | [], key, row => [(key, [row])]
  | (k, g) :: rest, key, row =>
    if strLt key k then (key, [row]) :: (k, g) :: rest
    else if key = k then (k, g ++ [row]) :: rest
    else (k, g) :: groupInsert rest key row

/-- One `GROUP_BY` loop iteration: a row lacking the column is skipped,
otherwise it is appended to its key's group. -/
def groupStep (group_column : String) (gs : List (String × Table)) (row : Row) :
    List (String × Table) :=
  match rowFind? row group_column with
  | none => gs
  | some key => groupInsert gs key row

/-- The `GROUP_BY(table, group_column)`: rows lacking the column are skipped; the
result is the `std::map` in ascending key order, each group in input order. -/
def GROUP_BY (table : Table) (group_column : String) : List (String × Table) :=
  table.foldl (groupStep group_column) []

/-! ## LIMIT / OFFSET (`queryclauses.hpp` lines 425-429) -/

/-- The `LIMIT_OFFSET(table, limit, offset)`: empty when `offset` is at or beyond
the table size, otherwise the slice `[offset, min(offset + limit, size))`. -/
def LIMIT_OFFSET (table : Table) (limit offset : Nat) : Table :=
  if table.length ≤ offset then []
  else (table.drop offset).take (min (offset + limit) table.length - offset)

/-! ## The Query 5 pipeline (`src/query5.cpp` lines 91-180)

`std::to_string(double)` renders with 6 fixed decimals; the model `dtos`
below truncates instead of rounding the sixth decimal — no claim depends on
the digits, only on the text being numeric (`stod?`-parseable). -/

/-- Decimal digit characters of `n`, most significant first. -/
def natDigits (n : Nat) : List Char :=
  if h : n < 10 then [Char.ofNat (48 + n)]
  else natDigits (n / 10) ++ [Char.ofNat (48 + n % 10)]
termination_by n
decreasing_by exact Nat.div_lt_self (by omega) (by omega)

/-- The `n` zero-padded to six digits (the fractional field of `%f`). -/
def padSix (n : Nat) : List Char :=
  List.replicate (6 - (natDigits n).length) '0' ++ natDigits n

/-- The `std::to_string(double)` model: sign, integer part, `'.'`, six fractional
digits (truncated). -/
def dtos (q : ℚ) : String :=
  let a := if q < 0 then -q else q
  let ip : Nat := a.num.toNat / a.den
  let fr : Nat := a.num.toNat * 1000000 / a.den % 1000000
  let body := natDigits ip ++ '.' :: padSix fr
  String.mk (if q < 0 then '-' :: body else body)

/-- The `WHERE(region_data, EQUALS("R_NAME", r_name))` — the dimension filter whose
emptiness is the pipeline's only `return false`. -/
def filteredRegion (region_data : Table) (r_name : String) : Table :=
  WHERE region_data (EQUALS "R_NAME" r_name)

/-- The orders date filter: its lambda calls `row.at("O_ORDERDATE")`, which
throws (`none`) on a row lacking the column; otherwise keep rows with
`start_date <= date && date < end_date`. -/
def filterDate : Table → String → String → Option Table
  | [], _, _ => some []
  | row :: rest, start_date, end_date =>
    match rowFind? row "O_ORDERDATE" with
    | none => none
    | some d =>
      (filterDate rest start_date end_date).map
        (fun t => if strLe start_date d && strLt d end_date then row :: t else t)

/-- The post-join filter `row.at("C_NATIONKEY") == row.at("S_NATIONKEY")`;
`at` throws (`none`) when either key is absent. -/
def nationMatchFilter : Table → Option Table
  | [] => some []
  | row :: rest =>
    match rowFind? row "C_NATIONKEY", rowFind? row "S_NATIONKEY" with
    | some c, some s =>
      (nationMatchFilter rest).map (fun t => if c == s then row :: t else t)
    | _, _ => none

/-- The revenue projection of one joined row:
`{N_NAME: row.at("N_NAME"), REVENUE: to_string(stod(price) * (1 - stod(discount)))}`;
`none` models any `at`/`stod` throw. -/
def revenueRow (row : Row) : Option Row :=
  match rowFind? row "N_NAME",
        rowFind? row "L_EXTENDEDPRICE", rowFind? row "L_DISCOUNT" with
  | some nm, some ps, some ds =>
    match stod? ps, stod? ds with
    | some price, some disc =>
      some [("N_NAME", nm), ("REVENUE", dtos (price * (1 - disc)))]
    | _, _ => none
  | _, _, _ => none

/-- The revenue projection loop over `full_join`. -/
def revenueTable : Table → Option Table
  | [] => some []
  | row :: rest =>
    match revenueRow row with
    | none => none
    | some nr => (revenueTable rest).map (fun t => nr :: t)

/-- The aggregation loop: one output row per group, in the `std::map`'s
ascending key order, with `REVENUE = to_string(SUM(group, "REVENUE"))`. -/
def aggregateRevenue : List (String × Table) → Option Table
  | [] => some []
  | (nation_name, group_rows) :: rest =>
    match SUM group_rows "REVENUE" with
    | none => none
    | some s =>
      (aggregateRevenue rest).map
        (fun t => [("N_NAME", nation_name), ("REVENUE", dtos s)] :: t)

/-- The final loop `results[row.at("N_NAME")] = stod(row.at("REVENUE"))`. -/
def buildResults : Table → Option (List (String × ℚ))
  | [] => some []
  | row :: rest =>
    match rowFind? row "N_NAME", (rowFind? row "REVENUE").bind stod? with
    | some nm, some rev => (buildResults rest).map (fun l => (nm, rev) :: l)
    | _, _ => none

/-- The pipeline from the region filter through the `with_revenue` table:
the join chain (all five joins use the concurrent hash join), the date filter
on orders, the nation-match post-filter, and the revenue projection. -/
def q5WithRevenue (r_name start_date end_date : String) (num_threads : Nat)
    (customer_data orders_data lineitem_data supplier_data nation_data
      region_data : Table) : Option Table :=
  let nation_region :=
    INNER_JOIN_HASH nation_data (filteredRegion region_data r_name)
      "N_REGIONKEY" "R_REGIONKEY" num_threads
  let customer_nation :=
    INNER_JOIN_HASH customer_data nation_region
      "C_NATIONKEY" "N_NATIONKEY" num_threads
  match filterDate orders_data start_date end_date with
  | none => none
  | some filtered_orders =>
    let customer_orders :=
      INNER_JOIN_HASH customer_nation filtered_orders
        "C_CUSTKEY" "O_CUSTKEY" num_threads
    let supplier_nation :=
      INNER_JOIN_HASH supplier_data nation_region
        "S_NATIONKEY" "N_NATIONKEY" num_threads
    let lineitem_orders :=
      INNER_JOIN_HASH lineitem_data customer_orders
        "L_ORDERKEY" "O_ORDERKEY" num_threads
    let temp_join :=
      INNER_JOIN_HASH lineitem_orders supplier_nation
        "L_SUPPKEY" "S_SUPPKEY" num_threads
    match nationMatchFilter temp_join with
    | none => none
    | some full_join => revenueTable full_join

/-- The `executeQuery5`: `none` models `return false` (and a thrown exception
escaping the function); `some results` models `return true` with the filled
result map, represented as its entries in ascending `N_NAME` order.  The
`ORDER_BY_DESC` between aggregation and the result loop is a permutation of
`aggregated` whose rows all carry parseable `REVENUE` text produced by
`to_string`; since every aggregated row has a distinct `N_NAME` and
`results` is a `std::map` keyed by `N_NAME`, the sort cannot throw and does
not change the resulting map, so it is dropped from the model. -/
def executeQuery5 (r_name start_date end_date : String) (num_threads : Nat)
    (customer_data orders_data lineitem_data supplier_data nation_data
      region_data : Table) : Option (List (String × ℚ)) :=
  if filteredRegion region_data r_name = [] then none
  else
    match q5WithRevenue r_name start_date end_date num_threads
        customer_data orders_data lineitem_data supplier_data nation_data
        region_data with
    | none => none
    | some with_revenue =>
      match aggregateRevenue (GROUP_BY with_revenue "N_NAME") with
      | none => none
      | some aggregated => buildResults aggregated

/-- Small concrete left table used by witnesses. -/
def sampleL : Table :=
  [[("a", "1"), ("x", "l0")], [("a", "2"), ("x", "l1")], [("a", "1"), ("x", "l2")]]

/-- Small concrete right table used by witnesses. -/
def sampleR : Table :=
  [[("b", "1"), ("y", "r0")], [("b", "1"), ("y", "r1")], [("b", "3"), ("y", "r2")]]

/-! ## Hash-join structure lemmas -/

/-- Dereferencing the indices collected by the build phase yields exactly the
right rows whose `right_column` value equals `key`, in table order.  `full` is
the complete right table; `rows` is its suffix starting at index `base`. -/
theorem buildIndexAux_map_getD (full : Table) (right_column key : String) :
    ∀ (rows : List Row) (base : Nat),
      (∀ j, j < rows.length → full.getD (base + j) [] = rows.getD j []) →
      (buildIndexAux rows right_column key base).map (fun i => full.getD i []) =
        rows.filter (fun row => rowFind? row right_column == some key) := by
  intro rows
  induction rows with
  | nil => intro base _; simp [buildIndexAux]
  | cons row rest ih =>
    intro base h
    have h0 : full.getD base [] = row := by
      have := h 0 (by simp)
      simpa using this
    have hrest : ∀ j, j < rest.length → full.getD (base + 1 + j) [] = rest.getD j [] := by
      intro j hj
      have := h (j + 1) (by simpa using Nat.succ_lt_succ hj)
      simpa [Nat.add_comm, Nat.add_assoc, Nat.add_left_comm] using this
    by_cases hp : rowFind? row right_column == some key
    · simp only [buildIndexAux, hp, if_pos, List.map_cons, List.filter_cons, h0]
      rw [ih (base + 1) hrest]
    · simp only [buildIndexAux, hp, List.filter_cons, Bool.false_eq_true, if_false]
      exact ih (base + 1) hrest

/-- Probing one left row against the hash index gives the same merged rows, in
the same order, as the nested-loop scan of the right table with `JOIN_ON`. -/
theorem probeRow_eq_filter (right_table : Table) (lc rc : String) (left_row : Row) :
    probeRow right_table lc rc left_row =
      (right_table.filter (JOIN_ON lc rc left_row)).map (mergeRows left_row) := by
  unfold probeRow
  cases hfind : rowFind? left_row lc with
  | none =>
    have : right_table.filter (JOIN_ON lc rc left_row) = [] := by
      apply List.filter_eq_nil_iff.mpr
      intro row _
      simp [JOIN_ON, hfind]
    simp [this]
  | some key =>
    have hidx := buildIndexAux_map_getD right_table rc key right_table 0
      (by intro j hj; simp)
    calc (buildIndexAux right_table rc key 0).map
            (fun i => mergeRows left_row (right_table.getD i []))
        = ((buildIndexAux right_table rc key 0).map
            (fun i => right_table.getD i [])).map (mergeRows left_row) := by
          rw [List.map_map]; rfl
      _ = (right_table.filter
            (fun row => rowFind? row rc == some key)).map (mergeRows left_row) := by
          rw [hidx]
      _ = (right_table.filter (JOIN_ON lc rc left_row)).map (mergeRows left_row) := by
          congr 1
          apply List.filter_congr
          intro row _
          simp only [JOIN_ON, hfind]
          cases rowFind? row rc with
          | none => simp
          | some b => simp [BEq.comm]

/-- Concatenating the `num_threads` contiguous chunks of size `chunk_size`
reproduces the first `num_threads * chunk_size` elements. -/
theorem chunks_flatMap_eq_take {α : Type} (l : List α) (cs : Nat) :
    ∀ t : Nat, (List.range t).flatMap (fun i => (l.drop (i * cs)).take cs) =
      l.take (t * cs) := by
  intro t
  induction t with
  | zero => simp
  | succ n ih =>
    rw [List.range_succ, List.flatMap_append, ih]
    simp only [List.flatMap_cons, List.flatMap_nil, List.append_nil]
    rw [Nat.succ_mul, List.take_add]

/-- The ceiling chunk size covers the whole left table: `t * ⌈n / t⌉ ≥ n`. -/
theorem length_le_threads_mul_chunk (n t : Nat) (ht : 1 ≤ t) :
    n ≤ t * ((n + t - 1) / t) := by
  have h := Nat.div_add_mod (n + t - 1) t
  have hmod : (n + t - 1) % t < t := Nat.mod_lt _ (by omega)
  omega

/-- For every positive thread count, the concurrent hash join computes exactly
the nested-loop inner join on the `JOIN_ON` predicate — merged rows, order
included. -/
theorem innerJoinHash_eq_innerJoin (L R : Table) (lc rc : String) (t : Nat)
    (ht : 1 ≤ t) :
    INNER_JOIN_HASH L R lc rc t = INNER_JOIN L R (JOIN_ON lc rc) := by
  unfold INNER_JOIN_HASH
  have hassoc :
      (List.range t).flatMap (fun i =>
        ((L.drop (i * ((L.length + t - 1) / t))).take ((L.length + t - 1) / t)).flatMap
          (probeRow R lc rc)) =
      ((List.range t).flatMap (fun i =>
        (L.drop (i * ((L.length + t - 1) / t))).take ((L.length + t - 1) / t))).flatMap
          (probeRow R lc rc) := by
    rw [List.flatMap_assoc]
  rw [hassoc, chunks_flatMap_eq_take L ((L.length + t - 1) / t) t]
  have hcover : L.length ≤ t * ((L.length + t - 1) / t) :=
    length_le_threads_mul_chunk L.length t ht
  rw [List.take_of_length_le (by omega)]
  unfold INNER_JOIN
  apply List.flatMap_congr
  intro lr _
  exact probeRow_eq_filter R lc rc lr

/-- The hash join on an empty left table is empty, whatever `t` is: every chunk
is a slice of the empty list. -/
theorem innerJoinHash_nil_left (R : Table) (lc rc : String) (t : Nat) :
    INNER_JOIN_HASH [] R lc rc t = [] := by
  unfold INNER_JOIN_HASH
  simp

/-! ## Claim theorems C1 and C2 -/

/-- C1: for all tables `L`, `R` and join columns `lc`, `rc`, the concurrent
hash join `INNER_JOIN(L, R, lc, rc, t)` produces the same multiset of merged
rows as the nested-loop `INNER_JOIN(L, R, JOIN_ON(lc, rc))` for every
`t ∈ {1, 2, |L|, |L| + 5}`, and its own output is identical for any two thread
counts from that set (so in particular across repeated runs with the same `t`:
the pure function below is the denotation of every schedule, because each
worker writes a private buffer and buffers are merged in worker-index order). -/
theorem hash_join_refines_nested_join (L R : Table) (lc rc : String) (t : Nat)
    (ht : t = 1 ∨ t = 2 ∨ t = L.length ∨ t = L.length + 5) :
    (INNER_JOIN_HASH L R lc rc t).Perm (INNER_JOIN L R (JOIN_ON lc rc)) ∧
    (∀ t₂, (t₂ = 1 ∨ t₂ = 2 ∨ t₂ = L.length ∨ t₂ = L.length + 5) →
      INNER_JOIN_HASH L R lc rc t = INNER_JOIN_HASH L R lc rc t₂) := by
  have key : ∀ s : Nat, (s = 1 ∨ s = 2 ∨ s = L.length ∨ s = L.length + 5) →
      INNER_JOIN_HASH L R lc rc s = INNER_JOIN L R (JOIN_ON lc rc) := by
    intro s hs
    by_cases hL : L = []
    · subst hL
      rw [innerJoinHash_nil_left]
      rfl
    · have hlen : 1 ≤ L.length := by
        cases L with
        | nil => exact absurd rfl hL
        | cons a l => simp
      have hs1 : 1 ≤ s := by omega
      exact innerJoinHash_eq_innerJoin L R lc rc s hs1
  refine ⟨?_, ?_⟩
  · rw [key t ht]
  · intro t₂ ht₂
    rw [key t ht, key t₂ ht₂]

/-- Witness for C1 at concrete tables, `t = 2`. -/
theorem hash_join_refines_nested_join_witness :
    (INNER_JOIN_HASH sampleL sampleR "a" "b" 2).Perm
      (INNER_JOIN sampleL sampleR (JOIN_ON "a" "b")) ∧
    (∀ t₂, (t₂ = 1 ∨ t₂ = 2 ∨ t₂ = sampleL.length ∨ t₂ = sampleL.length + 5) →
      INNER_JOIN_HASH sampleL sampleR "a" "b" 2 =
        INNER_JOIN_HASH sampleL sampleR "a" "b" t₂) :=
  hash_join_refines_nested_join sampleL sampleR "a" "b" 2 (Or.inr (Or.inl rfl))

/-- C2: the concurrent hash join partitions the left table into `num_threads`
contiguous chunks of `⌈|L| / num_threads⌉` rows (later chunks shorter or empty
when they run past the end), the chunks concatenate back to `L` in chunk-index
order, and the output is exactly the concatenation, in chunk-index order, of
each chunk's nested-loop inner join against the right table — which preserves
left-row order within a chunk and ascending right-table index order within one
left row's matches. -/
theorem hash_join_chunk_structure (L R : Table) (lc rc : String) (t : Nat)
    (ht : 1 ≤ t) :
    ((List.range t).flatMap
        (fun i => (L.drop (i * ((L.length + t - 1) / t))).take ((L.length + t - 1) / t))
      = L) ∧
    INNER_JOIN_HASH L R lc rc t =
      (List.range t).flatMap (fun i =>
        INNER_JOIN
          ((L.drop (i * ((L.length + t - 1) / t))).take ((L.length + t - 1) / t))
          R (JOIN_ON lc rc)) := by
  constructor
  · rw [chunks_flatMap_eq_take L ((L.length + t - 1) / t) t]
    exact List.take_of_length_le
      (le_trans (length_le_threads_mul_chunk L.length t ht) (by omega))
  · unfold INNER_JOIN_HASH
    apply List.flatMap_congr
    intro i _
    unfold INNER_JOIN
    apply List.flatMap_congr
    intro lr _
    exact probeRow_eq_filter R lc rc lr

/-- Witness for C2 at concrete tables, `t = 2`. -/
theorem hash_join_chunk_structure_witness :
    ((List.range 2).flatMap
        (fun i => (sampleL.drop (i * ((sampleL.length + 2 - 1) / 2))).take
          ((sampleL.length + 2 - 1) / 2))
      = sampleL) ∧
    INNER_JOIN_HASH sampleL sampleR "a" "b" 2 =
      (List.range 2).flatMap (fun i =>
        INNER_JOIN
          ((sampleL.drop (i * ((sampleL.length + 2 - 1) / 2))).take
            ((sampleL.length + 2 - 1) / 2))
          sampleR (JOIN_ON "a" "b")) :=
  hash_join_chunk_structure sampleL sampleR "a" "b" 2 (by omega)

/-! ## DISTINCT: C3 -/

/-- The `DISTINCT` loop equals the first-occurrence filter keyed on the string
encoding, relative to any starting `seen` set. -/
theorem distinctAux_eq_keepFirst :
    ∀ (T : Table) (seen : List String),
      distinctAux seen T =
        keepFirstByEnc (T.filter fun r => !(seen.contains (encodeRow r))) := by
  intro T
  induction T with
  | nil => intro seen; simp [distinctAux, keepFirstByEnc]
  | cons row rest ih =>
    intro seen
    by_cases h : seen.contains (encodeRow row)
    · simp only [distinctAux, h, if_pos, List.filter_cons, Bool.not_true,
        Bool.false_eq_true, if_false]
      exact ih seen
    · have hb : seen.contains (encodeRow row) = false := by
        simpa using h
      simp only [distinctAux, hb, Bool.false_eq_true, if_false,
        List.filter_cons, Bool.not_false, if_pos]
      rw [keepFirstByEnc]
      congr 1
      rw [ih (encodeRow row :: seen), List.filter_filter]
      congr 1
      apply List.filter_congr
      intro r _
      simp only [List.contains_cons, Bool.not_or]

/-- Counterexample to C3: the two rows below are different mappings — they
disagree on field `"a"` — yet `DISTINCT` drops the second, because both
serialize to `"a:b|c:d|"`. -/
theorem distinct_conflation_counterexample :
    DISTINCT [[("a", "b"), ("c", "d")], [("a", "b|c:d")]] = [[("a", "b"), ("c", "d")]] ∧
    rowFind? [("a", "b|c:d")] "a" ≠ rowFind? [("a", "b"), ("c", "d")] "a" := by
  constructor
  · rfl
  · decide

/-- C3 amended: `DISTINCT(T)` keeps exactly the first occurrence of each row,
where two rows count as duplicates precisely when their serialized string
encodings (`key + ":" + value + "|"` over the fields in key order) are equal;
kept rows appear in their original relative order.  Rows that are distinct as
mappings are conflated whenever their encodings collide. -/
theorem distinct_keeps_first_by_encoding (T : Table) :
    DISTINCT T = keepFirstByEnc T := by
  have h := distinctAux_eq_keepFirst T []
  simpa [DISTINCT] using h

/-! ## ORDER BY: C4 -/

/-- The executable comparison agrees with the string order. -/
theorem strLt_iff (a b : String) : strLt a b = true ↔ a < b := by
  rw [String.lt_iff_toList_lt]
  simp only [strLt, decide_eq_true_eq]
  exact Iff.rfl

/-- The `strLt a b = false` means `b ≤ a`. -/
theorem strLt_eq_false_iff (a b : String) : strLt a b = false ↔ b ≤ a := by
  rw [← not_lt, ← strLt_iff]
  cases strLt a b <;> simp

/-- Counterexample to C4: with two rows that tie on the sort column `"K"`, the
swapped order `[r2, r1]` is a permitted `std::sort` outcome of
`ORDER_BY_ASC([r1, r2], "K")` (it is a sorted permutation of the input), yet it
violates stability: the subsequence of rows with key `"a"` is reversed.
`std::sort` does not guarantee stability, so the code does not implement a
stable sort. -/
theorem order_by_stability_counterexample :
    sortSpecAsc "K" [[("K", "a"), ("i", "1")], [("K", "a"), ("i", "2")]]
      [[("K", "a"), ("i", "2")], [("K", "a"), ("i", "1")]] ∧
    ¬ stableFor "K" [[("K", "a"), ("i", "1")], [("K", "a"), ("i", "2")]]
      [[("K", "a"), ("i", "2")], [("K", "a"), ("i", "1")]] := by
  constructor
  · exact ⟨by decide, List.chain'_pair.mpr (by decide)⟩
  · intro hstable
    exact absurd (hstable "a") (by decide)

/-- C4 amended: `ORDER_BY_ASC` / `ORDER_BY_DESC` sort by the column's text
value under lexicographic comparison — every output permitted by the
`std::sort` contract is a permutation of the input whose sequence of sort-key
values is uniquely determined (non-decreasing for ASC, non-increasing for
DESC) — but the relative order of rows with equal values is *not* guaranteed
to be the original one (`std::sort` is not stable). -/
theorem order_by_sorts_by_column_text (T : Table) (column : String)
    (o₁ o₂ o₃ o₄ : Table)
    (hcol : ∀ r ∈ T, rowHas r column = true)
    (h₁ : sortSpecAsc column T o₁) (h₂ : sortSpecAsc column T o₂)
    (h₃ : sortSpecDesc column T o₃) (h₄ : sortSpecDesc column T o₄) :
    (o₁.map (fun r => rowAt r column) = o₂.map (fun r => rowAt r column)) ∧
    (o₃.map (fun r => rowAt r column) = o₄.map (fun r => rowAt r column)) := by
  have sortedAsc : ∀ o : Table, sortSpecAsc column T o →
      (o.map (fun r => rowAt r column)).Sorted (· ≤ ·) := by
    intro o ho
    have hc : (o.map (fun r => rowAt r column)).Chain' (· ≤ ·) := by
      rw [List.chain'_map]
      exact ho.2.imp (fun a b hab => (strLt_eq_false_iff _ _).mp hab)
    exact List.chain'_iff_pairwise.mp hc
  have sortedDesc : ∀ o : Table, sortSpecDesc column T o →
      (o.map (fun r => rowAt r column)).Sorted (· ≥ ·) := by
    intro o ho
    have hc : (o.map (fun r => rowAt r column)).Chain' (· ≥ ·) := by
      rw [List.chain'_map]
      exact ho.2.imp (fun a b hab => (strLt_eq_false_iff _ _).mp hab)
    exact List.chain'_iff_pairwise.mp hc
  constructor
  · exact List.eq_of_perm_of_sorted
      ((h₁.1.trans h₂.1.symm).map (fun r => rowAt r column))
      (sortedAsc o₁ h₁) (sortedAsc o₂ h₂)
  · exact List.eq_of_perm_of_sorted
      ((h₃.1.trans h₄.1.symm).map (fun r => rowAt r column))
      (sortedDesc o₃ h₃) (sortedDesc o₄ h₄)

/-- Witness for the amended C4 at a concrete table and two concrete admissible
outputs per direction. -/
theorem order_by_sorts_by_column_text_witness :
    (([[("K", "a")], [("K", "b")]] : Table).map (fun r => rowAt r "K") =
      ([[("K", "a")], [("K", "b")]] : Table).map (fun r => rowAt r "K")) ∧
    (([[("K", "b")], [("K", "a")]] : Table).map (fun r => rowAt r "K") =
      ([[("K", "b")], [("K", "a")]] : Table).map (fun r => rowAt r "K")) :=
  order_by_sorts_by_column_text [[("K", "a")], [("K", "b")]] "K"
    [[("K", "a")], [("K", "b")]] [[("K", "a")], [("K", "b")]]
    [[("K", "b")], [("K", "a")]] [[("K", "b")], [("K", "a")]]
    (by decide)
    ⟨by decide, List.chain'_pair.mpr (by decide)⟩
    ⟨by decide, List.chain'_pair.mpr (by decide)⟩
    ⟨by decide, List.chain'_pair.mpr (by decide)⟩
    ⟨by decide, List.chain'_pair.mpr (by decide)⟩

/-! ## Row merge: C8 -/

/-- The `std::map` assignment on the model: the inserted key reads back as the new
value, every other key is untouched. -/
theorem rowFind?_rowInsert (row : Row) (k v k' : String) :
    rowFind? (rowInsert row k v) k' = if k' = k then some v else rowFind? row k' := by
  induction row with
  | nil => simp [rowInsert, rowFind?]
  | cons p rest ih =>
    obtain ⟨k₀, v₀⟩ := p
    by_cases h1 : strLt k k₀
    · simp only [rowInsert, h1, if_pos, rowFind?]
    · by_cases h2 : k = k₀
      · subst h2
        simp only [rowInsert, h1, Bool.false_eq_true, if_false, if_pos, rowFind?]
        by_cases h3 : k' = k <;> simp [h3]
      · simp only [rowInsert, h1, Bool.false_eq_true, if_false, h2, rowFind?]
        by_cases h3 : k' = k₀
        · subst h3
          have : ¬ k' = k := fun h => h2 h.symm
          simp [this]
        · simp only [h3, if_false]
          exact ih

/-- A key absent from an association list reads back as `none`. -/
theorem rowFind?_eq_none_of_not_mem (row : Row) (k : String)
    (h : ∀ p ∈ row, p.1 ≠ k) : rowFind? row k = none := by
  induction row with
  | nil => rfl
  | cons p rest ih =>
    have hk : ¬ k = p.1 := fun he => (h p (by simp)) he.symm
    obtain ⟨k₀, v₀⟩ := p
    simp only [rowFind?, hk, if_false]
    exact ih (fun q hq => h q (by simp [hq]))

/-- Looking up any key in a merged row: the right row's binding wins when it
exists, otherwise the left row's binding shows through.  `hr` is the
`std::map` well-formedness of the right row (unique field names). -/
theorem rowFind?_mergeRows (l r : Row) (hr : (r.map Prod.fst).Nodup) (k : String) :
    rowFind? (mergeRows l r) k = (rowFind? r k).or (rowFind? l k) := by
  induction r generalizing l with
  | nil => simp [mergeRows, rowFind?]
  | cons p rest ih =>
    obtain ⟨k₀, v₀⟩ := p
    have hnot : k₀ ∉ rest.map Prod.fst := by
      have := hr
      simp only [List.map_cons, List.nodup_cons] at this
      exact this.1
    have hrest : (rest.map Prod.fst).Nodup := by
      have := hr
      simp only [List.map_cons, List.nodup_cons] at this
      exact this.2
    have hstep : mergeRows l ((k₀, v₀) :: rest) = mergeRows (rowInsert l k₀ v₀) rest := rfl
    rw [hstep, ih (rowInsert l k₀ v₀) hrest]
    by_cases hk : k = k₀
    · subst hk
      have hnone : rowFind? rest k = none := by
        apply rowFind?_eq_none_of_not_mem
        intro q hq he
        exact hnot (he ▸ List.mem_map_of_mem Prod.fst hq)
      simp [rowFind?, hnone, rowFind?_rowInsert]
    · simp [rowFind?, hk, rowFind?_rowInsert]

/-- Key presence in a merged row is the union of both key sets (no
well-formedness needed). -/
theorem rowHas_mergeRows (l r : Row) (k : String) :
    rowHas (mergeRows l r) k = (rowHas l k || rowHas r k) := by
  induction r generalizing l with
  | nil => simp [mergeRows, rowHas, rowFind?]
  | cons p rest ih =>
    obtain ⟨k₀, v₀⟩ := p
    have hstep : mergeRows l ((k₀, v₀) :: rest) = mergeRows (rowInsert l k₀ v₀) rest := rfl
    rw [hstep, ih (rowInsert l k₀ v₀)]
    simp only [rowHas, rowFind?_rowInsert, rowFind?]
    by_cases hk : k = k₀
    · simp [hk]
    · simp only [hk, if_false]

/-- C8: every merged row emitted by any of the join operators is
`mergeRows l r` for some input pair `(l, r)` (for `LEFT_JOIN`, unless it is an
unmatched left row emitted verbatim), and `mergeRows` itself carries exactly
the union of the two field sets with the right side winning on any name
collision. -/
theorem join_merge_union_right_wins :
    (∀ l r : Row, (r.map Prod.fst).Nodup →
      ∀ k, rowFind? (mergeRows l r) k = (rowFind? r k).or (rowFind? l k)) ∧
    (∀ l r : Row, ∀ k, rowHas (mergeRows l r) k = (rowHas l k || rowHas r k)) ∧
    (∀ (L R : Table) (p : Row → Row → Bool) (m : Row), m ∈ INNER_JOIN L R p →
      ∃ l ∈ L, ∃ r ∈ R, p l r = true ∧ m = mergeRows l r) ∧
    (∀ (L R : Table) (p : Row → Row → Bool) (m : Row), m ∈ LEFT_JOIN L R p →
      (m ∈ L ∧ ∀ r ∈ R, p m r = false) ∨
      (∃ l ∈ L, ∃ r ∈ R, p l r = true ∧ m = mergeRows l r)) ∧
    (∀ (L R : Table) (m : Row), m ∈ CROSS_JOIN L R →
      ∃ l ∈ L, ∃ r ∈ R, m = mergeRows l r) ∧
    (∀ (L R : Table) (lc rc : String) (t : Nat) (m : Row),
      m ∈ INNER_JOIN_HASH L R lc rc t →
      ∃ l ∈ L, ∃ r ∈ R, JOIN_ON lc rc l r = true ∧ m = mergeRows l r) := by
  refine ⟨rowFind?_mergeRows, fun l r k => rowHas_mergeRows l r k, ?_, ?_, ?_, ?_⟩
  · intro L R p m hm
    rw [INNER_JOIN, List.mem_flatMap] at hm
    obtain ⟨l, hl, hm⟩ := hm
    rw [List.mem_map] at hm
    obtain ⟨r, hr, hmr⟩ := hm
    rw [List.mem_filter] at hr
    exact ⟨l, hl, r, hr.1, hr.2, hmr.symm⟩
  · intro L R p m hm
    rw [LEFT_JOIN, List.mem_flatMap] at hm
    obtain ⟨l, hl, hm⟩ := hm
    simp only at hm
    by_cases he : ((R.filter (p l)).map (mergeRows l)).isEmpty
    · rw [if_pos he] at hm
      have hml : m = l := by simpa using hm
      subst hml
      left
      refine ⟨hl, fun r hr => ?_⟩
      have hfil : R.filter (p m) = [] := by
        have := List.isEmpty_iff.mp he
        exact List.map_eq_nil_iff.mp this
      by_contra hpr
      have : r ∈ R.filter (p m) :=
        List.mem_filter.mpr ⟨hr, by simpa using hpr⟩
      rw [hfil] at this
      exact absurd this (List.not_mem_nil r)
    · rw [if_neg he] at hm
      rw [List.mem_map] at hm
      obtain ⟨r, hr, hmr⟩ := hm
      rw [List.mem_filter] at hr
      exact Or.inr ⟨l, hl, r, hr.1, hr.2, hmr.symm⟩
  · intro L R m hm
    rw [CROSS_JOIN, List.mem_flatMap] at hm
    obtain ⟨l, hl, hm⟩ := hm
    rw [List.mem_map] at hm
    obtain ⟨r, hr, hmr⟩ := hm
    exact ⟨l, hl, r, hr, hmr.symm⟩
  · intro L R lc rc t m hm
    rw [INNER_JOIN_HASH, List.mem_flatMap] at hm
    obtain ⟨i, _, hm⟩ := hm
    rw [List.mem_flatMap] at hm
    obtain ⟨l, hl, hm⟩ := hm
    have hlL : l ∈ L := List.mem_of_mem_drop (List.mem_of_mem_take hl)
    rw [probeRow_eq_filter, List.mem_map] at hm
    obtain ⟨r, hr, hmr⟩ := hm
    rw [List.mem_filter] at hr
    exact ⟨l, hlL, r, hr.1, hr.2, hmr.symm⟩

/-- Witness for C8: a concrete merge where the right side overwrites the
shared field `"b"` and both field sets survive. -/
theorem join_merge_union_right_wins_witness :
    rowFind? (mergeRows [("a", "1"), ("b", "2")] [("b", "9"), ("c", "3")]) "b" =
      (rowFind? [("b", "9"), ("c", "3")] "b").or
        (rowFind? [("a", "1"), ("b", "2")] "b") :=
  join_merge_union_right_wins.1 [("a", "1"), ("b", "2")] [("b", "9"), ("c", "3")]
    (by decide) "b"

/-! ## LIMIT / OFFSET: C9 -/

/-- The `LIMIT_OFFSET` is the `drop`-then-`take` slice. -/
theorem limit_offset_eq_drop_take (table : Table) (limit offset : Nat) :
    LIMIT_OFFSET table limit offset = (table.drop offset).take limit := by
  unfold LIMIT_OFFSET
  by_cases h : table.length ≤ offset
  · rw [if_pos h, List.drop_eq_nil_of_le h, List.take_nil]
  · rw [if_neg h]
    rw [List.take_eq_take]
    rw [List.length_drop]
    omega

/-- C9: for page size `n > 0`, concatenating the pages
`LIMIT_OFFSET(T, n, 0), LIMIT_OFFSET(T, n, n), LIMIT_OFFSET(T, n, 2n), …`
(any number `k` of pages whose offsets reach `|T|`) reconstructs `T` exactly,
and a page whose offset is at or beyond `|T|` is empty rather than an error. -/
theorem limit_offset_pagination (T : Table) (n : Nat) (hn : 0 < n) :
    (∀ k, T.length ≤ k * n →
      (List.range k).flatMap (fun i => LIMIT_OFFSET T n (i * n)) = T) ∧
    (∀ m, T.length ≤ m → LIMIT_OFFSET T n m = []) := by
  constructor
  · intro k hk
    have hcongr :
        (List.range k).flatMap (fun i => LIMIT_OFFSET T n (i * n)) =
          (List.range k).flatMap (fun i => (T.drop (i * n)).take n) := by
      apply List.flatMap_congr
      intro i _
      exact limit_offset_eq_drop_take T n (i * n)
    rw [hcongr, chunks_flatMap_eq_take T n k]
    exact List.take_of_length_le hk
  · intro m hm
    unfold LIMIT_OFFSET
    rw [if_pos hm]

/-- Witness for C9 at a concrete table, `n = 2`, three pages. -/
theorem limit_offset_pagination_witness :
    ((List.range 2).flatMap (fun i => LIMIT_OFFSET sampleL 2 (i * 2)) = sampleL) ∧
    LIMIT_OFFSET sampleL 2 5 = [] :=
  ⟨(limit_offset_pagination sampleL 2 (by decide)).1 2 (by decide),
   (limit_offset_pagination sampleL 2 (by decide)).2 5 (by decide)⟩

/-! ## GROUP BY: C10 -/

/-- The `strLt` is total: if `a` is not below `b` and differs from it, `b` is
below `a`. -/
theorem strLt_total_of_ne (a b : String) (h : strLt a b = false) (hne : a ≠ b) :
    strLt b a = true := by
  rw [strLt_iff]
  exact lt_of_le_of_ne ((strLt_eq_false_iff a b).mp h) (fun he => hne he.symm)

/-- The `groupInsert` preserves any per-group property of rows that the inserted
row has for its key. -/
theorem groupInsert_forall (P : String → Row → Prop) :
    ∀ (gs : List (String × Table)) (key : String) (row : Row),
      (∀ p ∈ gs, ∀ r ∈ p.2, P p.1 r) → P key row →
      ∀ p ∈ groupInsert gs key row, ∀ r ∈ p.2, P p.1 r := by
  intro gs
  induction gs with
  | nil =>
    intro key row _ hrow p hp r hr
    simp only [groupInsert, List.mem_singleton] at hp
    subst hp
    simp only [List.mem_singleton] at hr
    subst hr
    exact hrow
  | cons q rest ih =>
    intro key row hgs hrow p hp r hr
    obtain ⟨k, g⟩ := q
    by_cases h1 : strLt key k
    · simp only [groupInsert, h1, if_pos] at hp
      rcases List.mem_cons.mp hp with h | h
      · subst h
        simp only [List.mem_singleton] at hr
        subst hr
        exact hrow
      · exact hgs p h r hr
    · by_cases h2 : key = k
      · subst h2
        simp only [groupInsert, h1, Bool.false_eq_true, if_false, if_pos,
          List.mem_cons] at hp
        rcases hp with h | h
        · subst h
          simp only at hr
          rcases List.mem_append.mp hr with h' | h'
          · exact hgs (key, g) (by simp) r h'
          · simp only [List.mem_singleton] at h'
            subst h'
            exact hrow
        · exact hgs p (by simp [h]) r hr
      · simp only [groupInsert, h1, Bool.false_eq_true, if_false, h2,
          List.mem_cons] at hp
        rcases hp with h | h
        · subst h
          exact hgs (k, g) (by simp) r hr
        · exact ih key row (fun q hq => hgs q (by simp [hq])) hrow p h r hr

/-- The `groupInsert` never creates an empty group. -/
theorem groupInsert_ne_nil :
    ∀ (gs : List (String × Table)) (key : String) (row : Row),
      (∀ p ∈ gs, p.2 ≠ []) → ∀ p ∈ groupInsert gs key row, p.2 ≠ [] := by
  intro gs
  induction gs with
  | nil =>
    intro key row _ p hp
    simp only [groupInsert, List.mem_singleton] at hp
    subst hp
    simp
  | cons q rest ih =>
    intro key row hgs p hp
    obtain ⟨k, g⟩ := q
    by_cases h1 : strLt key k
    · simp only [groupInsert, h1, if_pos, List.mem_cons] at hp
      rcases hp with h | h
      · subst h; simp
      · exact hgs p (List.mem_cons.mpr h)
    · by_cases h2 : key = k
      · subst h2
        simp only [groupInsert, h1, Bool.false_eq_true, if_false, if_pos,
          List.mem_cons] at hp
        rcases hp with h | h
        · subst h; simp
        · exact hgs p (by simp [h])
      · simp only [groupInsert, h1, Bool.false_eq_true, if_false, h2,
          List.mem_cons] at hp
        rcases hp with h | h
        · subst h
          exact hgs (k, g) (by simp)
        · exact ih key row (fun q hq => hgs q (by simp [hq])) p h

/-- The first key of `groupInsert gs key row` is `key` or the first key of
`gs`. -/
theorem groupInsert_head_key (gs : List (String × Table)) (key : String) (row : Row) :
    ((groupInsert gs key row).map Prod.fst).head? = some key ∨
    ((groupInsert gs key row).map Prod.fst).head? = (gs.map Prod.fst).head? := by
  cases gs with
  | nil => left; rfl
  | cons q rest =>
    obtain ⟨k, g⟩ := q
    by_cases h1 : strLt key k
    · left; simp [groupInsert, h1]
    · by_cases h2 : key = k
      · subst h2
        right; simp [groupInsert, h1]
      · right; simp [groupInsert, h1, h2]

/-- The `groupInsert` keeps the key list strictly ascending. -/
theorem groupInsert_keys_chain :
    ∀ (gs : List (String × Table)) (key : String) (row : Row),
      (gs.map Prod.fst).Chain' (fun a b => strLt a b = true) →
      ((groupInsert gs key row).map Prod.fst).Chain' (fun a b => strLt a b = true) := by
  intro gs
  induction gs with
  | nil => intro key row _; simp [groupInsert]
  | cons q rest ih =>
    intro key row hchain
    obtain ⟨k, g⟩ := q
    simp only [List.map_cons] at hchain
    rw [List.chain'_cons'] at hchain
    by_cases h1 : strLt key k
    · simp only [groupInsert, h1, if_pos, List.map_cons]
      rw [List.chain'_cons']
      refine ⟨?_, by rw [List.chain'_cons']; exact hchain⟩
      intro h hh
      simp only [List.head?_cons, Option.mem_def, Option.some.injEq] at hh
      subst hh
      exact h1
    · by_cases h2 : key = k
      · subst h2
        simp only [groupInsert, h1, Bool.false_eq_true, if_false, if_pos,
          List.map_cons]
        rw [List.chain'_cons']
        exact hchain
      · have hk : strLt k key = true := strLt_total_of_ne key k (by simpa using h1) h2
        simp only [groupInsert, h1, Bool.false_eq_true, if_false, h2, List.map_cons]
        rw [List.chain'_cons']
        refine ⟨?_, ih key row hchain.2⟩
        intro h hh
        rcases groupInsert_head_key rest key row with hcase | hcase
        · rw [hcase] at hh
          simp only [Option.mem_def, Option.some.injEq] at hh
          subst hh
          exact hk
        · rw [hcase] at hh
          exact hchain.1 h hh

/-- Inserting a row adds exactly that row to the multiset of grouped rows. -/
theorem groupInsert_flatMap_perm :
    ∀ (gs : List (String × Table)) (key : String) (row : Row),
      ((groupInsert gs key row).flatMap Prod.snd).Perm
        (row :: gs.flatMap Prod.snd) := by
  intro gs
  induction gs with
  | nil => intro key row; simp [groupInsert]
  | cons q rest ih =>
    intro key row
    obtain ⟨k, g⟩ := q
    by_cases h1 : strLt key k
    · simp [groupInsert, h1]
    · by_cases h2 : key = k
      · subst h2
        simp only [groupInsert, h1, Bool.false_eq_true, if_false, if_pos,
          List.flatMap_cons]
        have he : g ++ [row] ++ rest.flatMap Prod.snd = g ++ row :: rest.flatMap Prod.snd := by
          simp
        rw [he]
        exact List.perm_middle
      · simp only [groupInsert, h1, Bool.false_eq_true, if_false, h2,
          List.flatMap_cons]
        exact (List.Perm.append_left g (ih key row)).trans List.perm_middle

/-- Folding `groupStep` preserves any per-group row property satisfied by all
processed rows. -/
theorem groupFold_forall (P : String → Row → Prop) (group_column : String) :
    ∀ (table : Table) (gs : List (String × Table)),
      (∀ p ∈ gs, ∀ r ∈ p.2, P p.1 r) →
      (∀ row ∈ table, ∀ key, rowFind? row group_column = some key → P key row) →
      ∀ p ∈ table.foldl (groupStep group_column) gs, ∀ r ∈ p.2, P p.1 r := by
  intro table
  induction table with
  | nil => intro gs hgs _; simpa using hgs
  | cons row rest ih =>
    intro gs hgs htable
    simp only [List.foldl_cons]
    apply ih
    · unfold groupStep
      cases hfind : rowFind? row group_column with
      | none => exact hgs
      | some key =>
        exact groupInsert_forall P gs key row hgs (htable row (by simp) key hfind)
    · intro r hr key hk
      exact htable r (by simp [hr]) key hk

/-- Folding `groupStep` never creates an empty group. -/
theorem groupFold_ne_nil (group_column : String) :
    ∀ (table : Table) (gs : List (String × Table)),
      (∀ p ∈ gs, p.2 ≠ []) →
      ∀ p ∈ table.foldl (groupStep group_column) gs, p.2 ≠ [] := by
  intro table
  induction table with
  | nil => intro gs hgs; simpa using hgs
  | cons row rest ih =>
    intro gs hgs
    simp only [List.foldl_cons]
    apply ih
    unfold groupStep
    cases rowFind? row group_column with
    | none => exact hgs
    | some key => exact groupInsert_ne_nil gs key row hgs

/-- Folding `groupStep` keeps the key list strictly ascending. -/
theorem groupFold_keys_chain (group_column : String) :
    ∀ (table : Table) (gs : List (String × Table)),
      (gs.map Prod.fst).Chain' (fun a b => strLt a b = true) →
      ((table.foldl (groupStep group_column) gs).map Prod.fst).Chain'
        (fun a b => strLt a b = true) := by
  intro table
  induction table with
  | nil => intro gs hgs; simpa using hgs
  | cons row rest ih =>
    intro gs hgs
    simp only [List.foldl_cons]
    apply ih
    unfold groupStep
    cases rowFind? row group_column with
    | none => exact hgs
    | some key => exact groupInsert_keys_chain gs key row hgs

/-- The multiset of grouped rows after the fold is the starting multiset plus
the processed rows that carry the group column. -/
theorem groupFold_flatMap_perm (group_column : String) :
    ∀ (table : Table) (gs : List (String × Table)),
      ((table.foldl (groupStep group_column) gs).flatMap Prod.snd).Perm
        (gs.flatMap Prod.snd ++ table.filter (fun r => rowHas r group_column)) := by
  intro table
  induction table with
  | nil => intro gs; simp
  | cons row rest ih =>
    intro gs
    simp only [List.foldl_cons, List.filter_cons]
    cases hfind : rowFind? row group_column with
    | none =>
      have hstep : groupStep group_column gs row = gs := by
        unfold groupStep; rw [hfind]
      have hhas : rowHas row group_column = false := by
        simp [rowHas, hfind]
      rw [hstep, hhas]
      simpa using ih gs
    | some key =>
      have hstep : groupStep group_column gs row = groupInsert gs key row := by
        unfold groupStep; rw [hfind]
      have hhas : rowHas row group_column = true := by
        simp [rowHas, hfind]
      rw [hstep, hhas]
      simp only [if_pos]
      exact (ih _).trans
        (((groupInsert_flatMap_perm gs key row).append_right _).trans
          List.perm_middle.symm)

/-- C10: every group produced by `GROUP_BY` is non-empty; every row placed in
a group carries the group column with exactly that group's key and comes from
the input table; the group keys are pairwise distinct (so the groups are
disjoint); and the grouped rows, taken together, are exactly (as a multiset)
the input rows that possess the group column. -/
theorem group_by_partitions (table : Table) (group_column : String) :
    (∀ p ∈ GROUP_BY table group_column,
      p.2 ≠ [] ∧ ∀ r ∈ p.2, rowFind? r group_column = some p.1 ∧ r ∈ table) ∧
    ((GROUP_BY table group_column).map Prod.fst).Nodup ∧
    ((GROUP_BY table group_column).flatMap Prod.snd).Perm
      (table.filter (fun r => rowHas r group_column)) := by
  refine ⟨?_, ?_, ?_⟩
  · intro p hp
    constructor
    · exact groupFold_ne_nil group_column table [] (by simp) p hp
    · intro r hr
      exact groupFold_forall
        (fun key row => rowFind? row group_column = some key ∧ row ∈ table)
        group_column table [] (by simp)
        (fun row hrow key hk => ⟨hk, hrow⟩) p hp r hr
  · have hchain := groupFold_keys_chain group_column table [] (by simp)
    have hlt : ((GROUP_BY table group_column).map Prod.fst).Chain' (· < ·) :=
      hchain.imp (fun a b hab => (strLt_iff a b).mp hab)
    have hpw := List.chain'_iff_pairwise.mp hlt
    exact hpw.imp ne_of_lt
  · simpa using groupFold_flatMap_perm group_column table []

/-- Witness for C10 at a concrete table: the group of `"b"` holds exactly the
two `"b"` rows, in input order, and they carry the key. -/
theorem group_by_partitions_witness :
    ([[("n", "b"), ("v", "1")], [("n", "b"), ("v", "3")]] : Table) ≠ [] ∧
    ∀ r ∈ ([[("n", "b"), ("v", "1")], [("n", "b"), ("v", "3")]] : Table),
      rowFind? r "n" = some "b" ∧
      r ∈ ([[("n", "b"), ("v", "1")], [("n", "a"), ("v", "2")],
            [("n", "b"), ("v", "3")], [("x", "9")]] : Table) :=
  (group_by_partitions
      [[("n", "b"), ("v", "1")], [("n", "a"), ("v", "2")],
       [("n", "b"), ("v", "3")], [("x", "9")]] "n").1
    ("b", [[("n", "b"), ("v", "1")], [("n", "b"), ("v", "3")]]) (by decide)

/-! ## Parser facts: `stod?` accepts every `dtos` rendering -/

/-- The ten decimal digit characters are digits. -/
theorem digitChar_isDigit : ∀ d < 10, (Char.ofNat (48 + d)).isDigit = true := by
  decide

/-- The `natDigits` is never empty. -/
theorem natDigits_ne_nil (n : Nat) : natDigits n ≠ [] := by
  rw [natDigits]
  split
  · simp
  · simp

/-- Every character produced by `natDigits` is a digit. -/
theorem natDigits_all_digits (n : Nat) : ∀ c ∈ natDigits n, c.isDigit = true := by
  induction n using Nat.strong_induction_on with
  | _ n ih =>
    rw [natDigits]
    split
    · intro c hc
      simp only [List.mem_singleton] at hc
      subst hc
      exact digitChar_isDigit n (by omega)
    · intro c hc
      rcases List.mem_append.mp hc with h | h
      · exact ih (n / 10) (Nat.div_lt_self (by omega) (by omega)) c h
      · simp only [List.mem_singleton] at h
        subst h
        exact digitChar_isDigit (n % 10) (Nat.mod_lt _ (by omega))

/-- Every character of a `padSix` rendering is a digit. -/
theorem padSix_all_digits (n : Nat) : ∀ c ∈ padSix n, c.isDigit = true := by
  intro c hc
  rcases List.mem_append.mp hc with h | h
  · have : c = '0' := List.eq_of_mem_replicate h
    subst this
    decide
  · exact natDigits_all_digits n c h

/-- The `takeWhile`/`dropWhile` on a satisfying prefix followed by a failing
character. -/
theorem takeWhile_append_cons (p : Char → Bool) :
    ∀ (l : List Char), (∀ c ∈ l, p c = true) →
      ∀ (c₀ : Char) (r : List Char), p c₀ = false →
        (l ++ c₀ :: r).takeWhile p = l ∧ (l ++ c₀ :: r).dropWhile p = c₀ :: r := by
  intro l
  induction l with
  | nil =>
    intro _ c₀ r hc₀
    simp [List.takeWhile_cons, List.dropWhile_cons, hc₀]
  | cons c cs ih =>
    intro hl c₀ r hc₀
    have hc : p c = true := hl c (by simp)
    have := ih (fun d hd => hl d (by simp [hd])) c₀ r hc₀
    simp [List.takeWhile_cons, List.dropWhile_cons, hc, this.1, this.2]

/-- The `takeWhile`/`dropWhile` on an entirely satisfying list. -/
theorem takeWhile_all (p : Char → Bool) :
    ∀ (l : List Char), (∀ c ∈ l, p c = true) →
      l.takeWhile p = l ∧ l.dropWhile p = [] := by
  intro l
  induction l with
  | nil => intro _; simp
  | cons c cs ih =>
    intro hl
    have hc : p c = true := hl c (by simp)
    have := ih (fun d hd => hl d (by simp [hd]))
    simp [List.takeWhile_cons, List.dropWhile_cons, hc, this.1, this.2]

/-- A digit character is not a sign and not whitespace. -/
theorem isDigit_not_special (c : Char) (h : c.isDigit = true) :
    (c == '-') = false ∧ (c == '+') = false ∧ isSpaceC c = false := by
  refine ⟨?_, ?_, ?_⟩
  · by_cases hc : c = '-'
    · subst hc; simp at h
    · simpa using hc
  · by_cases hc : c = '+'
    · subst hc; simp at h
    · simpa using hc
  · by_cases h1 : c = ' '
    · subst h1; simp at h
    by_cases h2 : c = '\t'
    · subst h2; simp at h
    by_cases h3 : c = '\n'
    · subst h3; simp at h
    by_cases h4 : c = '\r'
    · subst h4; simp at h
    by_cases h5 : c = Char.ofNat 11
    · subst h5; simp at h
    by_cases h6 : c = Char.ofNat 12
    · subst h6; simp at h
    simp [isSpaceC, h1, h2, h3, h4, h5, h6]

/-- The `stodCore` succeeds on a digit string followed by `'.'` and digits. -/
theorem stodCore_digits_isSome (ipDigits frDigits : List Char)
    (hip : ∀ c ∈ ipDigits, c.isDigit = true) (hipne : ipDigits ≠ [])
    (hfr : ∀ c ∈ frDigits, c.isDigit = true) :
    (stodCore (ipDigits ++ '.' :: frDigits)).isSome = true ∧
    (stodCore ('-' :: (ipDigits ++ '.' :: frDigits))).isSome = true := by
  obtain ⟨c, cs, hcons⟩ := List.exists_cons_of_ne_nil hipne
  have hcdigit : c.isDigit = true := hip c (by rw [hcons]; simp)
  have hsplit : splitSign (ipDigits ++ '.' :: frDigits) =
      (1, ipDigits ++ '.' :: frDigits) := by
    rw [hcons]
    simp only [List.cons_append, splitSign]
    rw [(isDigit_not_special c hcdigit).1, (isDigit_not_special c hcdigit).2.1]
    simp
  have hsplitneg : splitSign ('-' :: (ipDigits ++ '.' :: frDigits)) =
      (-1, ipDigits ++ '.' :: frDigits) := by
    simp [splitSign]
  have htake := takeWhile_append_cons Char.isDigit ipDigits hip '.' frDigits (by decide)
  have hfrall := takeWhile_all Char.isDigit frDigits hfr
  constructor
  · rw [stodCore, hsplit]
    simp only [htake.1, htake.2, splitFrac, hfrall.1]
    rw [hcons]
    simp only [List.isEmpty_cons, Bool.false_and, Bool.false_eq_true, if_false]
    split <;> simp
  · rw [stodCore, hsplitneg]
    simp only [htake.1, htake.2, splitFrac, hfrall.1]
    rw [hcons]
    simp only [List.isEmpty_cons, Bool.false_and, Bool.false_eq_true, if_false]
    split <;> simp

/-- The `stod?` accepts every string `dtos` produces. -/
theorem stod?_dtos_isSome (q : ℚ) : (stod? (dtos q)).isSome = true := by
  unfold dtos
  set a := if q < 0 then -q else q with ha
  set ip : Nat := a.num.toNat / a.den with hip
  set fr : Nat := a.num.toNat * 1000000 / a.den % 1000000 with hfr
  have hipd := natDigits_all_digits ip
  have hipne := natDigits_ne_nil ip
  have hfrd := padSix_all_digits fr
  have hcore := stodCore_digits_isSome (natDigits ip) (padSix fr) hipd hipne hfrd
  by_cases hq : q < 0
  · simp only [hq, if_pos]
    unfold stod?
    have hdata : (String.mk ('-' :: (natDigits ip ++ '.' :: padSix fr))).data =
        '-' :: (natDigits ip ++ '.' :: padSix fr) := rfl
    rw [hdata]
    rw [List.dropWhile_cons]
    simp only [show isSpaceC '-' = false by decide, Bool.false_eq_true, if_false]
    exact hcore.2
  · simp only [hq, if_false]
    unfold stod?
    obtain ⟨c, cs, hcons⟩ := List.exists_cons_of_ne_nil hipne
    have hcdigit : c.isDigit = true := hipd c (by rw [hcons]; simp)
    have hdata : (String.mk (natDigits ip ++ '.' :: padSix fr)).data =
        natDigits ip ++ '.' :: padSix fr := rfl
    rw [hdata, hcons]
    simp only [List.cons_append, List.dropWhile_cons,
      (isDigit_not_special c hcdigit).2.2, Bool.false_eq_true, if_false]
    rw [← List.cons_append, ← hcons]
    exact hcore.1

/-! ## SUM: C6 -/

/-- When every present field parses, the accumulation succeeds and absent
fields contribute `0`. -/
theorem sumAux_some (column : String) :
    ∀ (group : Table) (acc : ℚ),
      (∀ r ∈ group, (rowFind? r column).isSome = true →
        ((rowFind? r column).bind stod?).isSome = true) →
      sumAux group column acc =
        some (acc +
          (group.map (fun r => ((rowFind? r column).bind stod?).getD 0)).sum) := by
  intro group
  induction group with
  | nil => intro acc _; simp [sumAux]
  | cons row rest ih =>
    intro acc hp
    have hrest : ∀ r ∈ rest, (rowFind? r column).isSome = true →
        ((rowFind? r column).bind stod?).isSome = true :=
      fun r hr => hp r (by simp [hr])
    cases hfind : rowFind? row column with
    | none =>
      simp only [sumAux, hfind, List.map_cons, List.sum_cons]
      rw [ih acc hrest]
      simp [hfind]
    | some v =>
      have hv : (stod? v).isSome = true := by
        have := hp row (by simp) (by simp [hfind])
        simpa [hfind] using this
      obtain ⟨x, hx⟩ := Option.isSome_iff_exists.mp hv
      simp only [sumAux, hfind, hx, List.map_cons, List.sum_cons]
      rw [ih (acc + x) hrest]
      congr 1
      simp [hfind, hx]
      ring

/-- A present but unparseable field aborts the accumulation. -/
theorem sumAux_none (column : String) :
    ∀ (group : Table) (acc : ℚ),
      (∃ r ∈ group, (rowFind? r column).isSome = true ∧
        (rowFind? r column).bind stod? = none) →
      sumAux group column acc = none := by
  intro group
  induction group with
  | nil => intro acc h; simp at h
  | cons row rest ih =>
    intro acc h
    obtain ⟨r, hr, hsome, hnone⟩ := h
    rcases List.mem_cons.mp hr with he | he
    · subst he
      obtain ⟨v, hv⟩ := Option.isSome_iff_exists.mp hsome
      rw [hv] at hnone
      simp only [Option.some_bind] at hnone
      simp [sumAux, hv, hnone]
    · cases hfind : rowFind? row column with
      | none =>
        simp only [sumAux, hfind]
        exact ih acc ⟨r, he, hsome, hnone⟩
      | some v =>
        cases hx : stod? v with
        | none => simp [sumAux, hfind, hx]
        | some x =>
          simp only [sumAux, hfind, hx]
          exact ih (acc + x) ⟨r, he, hsome, hnone⟩

/-- C6: `SUM` accumulates each row where the column is present, parsed as a
number; rows lacking the column contribute `0` without failing; and `SUM`
fails (rather than coercing to zero) whenever some present field value does
not parse. -/
theorem sum_absent_zero_present_must_parse (group : Table) (column : String) :
    ((∀ r ∈ group, (rowFind? r column).isSome = true →
        ((rowFind? r column).bind stod?).isSome = true) →
      SUM group column =
        some ((group.map (fun r => ((rowFind? r column).bind stod?).getD 0)).sum)) ∧
    ((∃ r ∈ group, (rowFind? r column).isSome = true ∧
        (rowFind? r column).bind stod? = none) →
      SUM group column = none) := by
  constructor
  · intro hp
    rw [SUM, sumAux_some column group 0 hp, zero_add]
  · intro hbad
    exact sumAux_none column group 0 hbad

/-- Witness for C6: a parse-clean group (absent field contributing `0`) and a
group with present non-numeric text. -/
theorem sum_absent_zero_present_must_parse_witness :
    SUM [[("c", "2")], [("d", "9")], [("c", "3.5")]] "c" =
      some ((([[("c", "2")], [("d", "9")], [("c", "3.5")]] : Table).map
        (fun r => ((rowFind? r "c").bind stod?).getD 0)).sum) ∧
    SUM [[("c", "abc")]] "c" = none :=
  ⟨(sum_absent_zero_present_must_parse [[("c", "2")], [("d", "9")], [("c", "3.5")]]
      "c").1 (by decide),
   (sum_absent_zero_present_must_parse [[("c", "abc")]] "c").2
      ⟨[("c", "abc")], by decide, by decide, by decide⟩⟩

/-! ## MAX / MIN: C7 -/

/-- The `MAX` scan cannot fail on parse-clean rows, and never drops below its
seed. -/
theorem maxLoop_some (column : String) :
    ∀ (group : Table) (m : ℚ),
      (∀ r ∈ group, (rowFind? r column).isSome = true →
        ((rowFind? r column).bind stod?).isSome = true) →
      ∃ m', maxLoop group column m = some m' ∧ m ≤ m' := by
  intro group
  induction group with
  | nil => intro m _; exact ⟨m, rfl, le_refl m⟩
  | cons row rest ih =>
    intro m hp
    have hrest : ∀ r ∈ rest, (rowFind? r column).isSome = true →
        ((rowFind? r column).bind stod?).isSome = true :=
      fun r hr => hp r (by simp [hr])
    cases hfind : rowFind? row column with
    | none =>
      obtain ⟨m', hm', hle⟩ := ih m hrest
      exact ⟨m', by simp [maxLoop, hfind, hm'], hle⟩
    | some v =>
      have hv : (stod? v).isSome = true := by
        have := hp row (by simp) (by simp [hfind])
        simpa [hfind] using this
      obtain ⟨x, hx⟩ := Option.isSome_iff_exists.mp hv
      obtain ⟨m', hm', hle⟩ := ih (if x > m then x else m) hrest
      refine ⟨m', by simp [maxLoop, hfind, hx, hm'], ?_⟩
      by_cases hxm : x > m
      · exact le_trans (le_of_lt hxm) (by simpa [hxm] using hle)
      · simpa [hxm] using hle

/-- The `MIN` scan cannot fail on parse-clean rows, and never rises above its
seed. -/
theorem minLoop_some (column : String) :
    ∀ (group : Table) (m : ℚ),
      (∀ r ∈ group, (rowFind? r column).isSome = true →
        ((rowFind? r column).bind stod?).isSome = true) →
      ∃ m', minLoop group column m = some m' ∧ m' ≤ m := by
  intro group
  induction group with
  | nil => intro m _; exact ⟨m, rfl, le_refl m⟩
  | cons row rest ih =>
    intro m hp
    have hrest : ∀ r ∈ rest, (rowFind? r column).isSome = true →
        ((rowFind? r column).bind stod?).isSome = true :=
      fun r hr => hp r (by simp [hr])
    cases hfind : rowFind? row column with
    | none =>
      obtain ⟨m', hm', hle⟩ := ih m hrest
      exact ⟨m', by simp [minLoop, hfind, hm'], hle⟩
    | some v =>
      have hv : (stod? v).isSome = true := by
        have := hp row (by simp) (by simp [hfind])
        simpa [hfind] using this
      obtain ⟨x, hx⟩ := Option.isSome_iff_exists.mp hv
      obtain ⟨m', hm', hle⟩ := ih (if x < m then x else m) hrest
      refine ⟨m', by simp [minLoop, hfind, hx, hm'], ?_⟩
      by_cases hxm : x < m
      · exact le_trans (by simpa [hxm] using hle) (le_of_lt hxm)
      · simpa [hxm] using hle

/-- C7: on a non-empty, parse-clean group, `MAX` and `MIN` fail precisely when
the first row lacks the column (a later row lacking it is skipped, not an
error), and the running value is seeded from the first row's parsed value. -/
theorem max_min_seeded_from_first_row (group : Table) (column : String)
    (hne : group ≠ [])
    (hp : ∀ r ∈ group, (rowFind? r column).isSome = true →
      ((rowFind? r column).bind stod?).isSome = true) :
    ((MAX group column).isNone ↔ rowFind? (group.headD []) column = none) ∧
    ((MIN group column).isNone ↔ rowFind? (group.headD []) column = none) ∧
    (∀ v x, rowFind? (group.headD []) column = some v → stod? v = some x →
      (∃ m, MAX group column = some m ∧ x ≤ m) ∧
      (∃ m, MIN group column = some m ∧ m ≤ x)) := by
  obtain ⟨first, rest, hcons⟩ := List.exists_cons_of_ne_nil hne
  subst hcons
  simp only [List.headD_cons]
  cases hfind : rowFind? first column with
  | none =>
    refine ⟨?_, ?_, ?_⟩
    · simp [MAX, hfind]
    · simp [MIN, hfind]
    · intro v x hv
      exact absurd hv (by simp)
  | some v =>
    have hv : (stod? v).isSome = true := by
      have := hp first (by simp) (by simp [hfind])
      simpa [hfind] using this
    obtain ⟨seed, hseed⟩ := Option.isSome_iff_exists.mp hv
    obtain ⟨mx, hmx, hmxle⟩ := maxLoop_some column (first :: rest) seed hp
    obtain ⟨mn, hmn, hmnle⟩ := minLoop_some column (first :: rest) seed hp
    refine ⟨?_, ?_, ?_⟩
    · simp [MAX, hfind, hseed, hmx]
    · simp [MIN, hfind, hseed, hmn]
    · intro v' x hv' hx
      have hvv : v = v' := by injection hv'
      subst hvv
      rw [hseed] at hx
      have hxseed : seed = x := by injection hx
      subst hxseed
      constructor
      · exact ⟨mx, by simp [MAX, hfind, hseed, hmx], hmxle⟩
      · exact ⟨mn, by simp [MIN, hfind, hseed, hmn], hmnle⟩

/-- Witness for C7: a group whose first row lacks the column (both aggregates
fail) and a group whose later row lacks it (skipped; seed bounds the result). -/
theorem max_min_seeded_from_first_row_witness :
    (MAX [[("b", "1")], [("c", "2")]] "c").isNone ∧
    (∃ m, MAX [[("c", "2")], [("b", "1")], [("c", "5")]] "c" = some m ∧ (2 : ℚ) ≤ m) ∧
    (∃ m, MIN [[("c", "2")], [("b", "1")], [("c", "5")]] "c" = some m ∧ m ≤ (2 : ℚ)) :=
  ⟨(max_min_seeded_from_first_row [[("b", "1")], [("c", "2")]] "c"
      (by decide) (by decide)).1.mpr (by decide),
   ((max_min_seeded_from_first_row [[("c", "2")], [("b", "1")], [("c", "5")]] "c"
      (by decide) (by decide)).2.2 "2" 2 (by decide) (by decide)).1,
   ((max_min_seeded_from_first_row [[("c", "2")], [("b", "1")], [("c", "5")]] "c"
      (by decide) (by decide)).2.2 "2" 2 (by decide) (by decide)).2⟩

/-! ## Query 5: C5 -/

/-- Probing against an empty right table yields nothing. -/
theorem probeRow_nil_right (lc rc : String) (lr : Row) :
    probeRow [] lc rc lr = [] := by
  unfold probeRow
  cases rowFind? lr lc <;> simp [buildIndexAux]

/-- The hash join against an empty right table is empty. -/
theorem innerJoinHash_nil_right (L : Table) (lc rc : String) (t : Nat) :
    INNER_JOIN_HASH L [] lc rc t = [] := by
  unfold INNER_JOIN_HASH
  simp [probeRow_nil_right]

/-- Every row the revenue projection emits is
`[("N_NAME", nm), ("REVENUE", dtos q)]`. -/
theorem revenueRow_shape (row nr : Row) (h : revenueRow row = some nr) :
    ∃ nm q, nr = [("N_NAME", nm), ("REVENUE", dtos q)] := by
  unfold revenueRow at h
  split at h
  · split at h
    · injection h with h
      exact ⟨_, _, h.symm⟩
    · exact absurd h (by simp)
  · exact absurd h (by simp)

/-- Every row of a successfully produced `with_revenue` table has the revenue
shape. -/
theorem revenueTable_shape :
    ∀ (fj wr : Table), revenueTable fj = some wr →
      ∀ row ∈ wr, ∃ nm q, row = [("N_NAME", nm), ("REVENUE", dtos q)] := by
  intro fj
  induction fj with
  | nil =>
    intro wr h row hrow
    unfold revenueTable at h
    injection h with h
    subst h
    exact absurd hrow (by simp)
  | cons r rest ih =>
    intro wr h row hrow
    unfold revenueTable at h
    cases hr : revenueRow r with
    | none => rw [hr] at h; exact absurd h (by simp)
    | some nr =>
      rw [hr] at h
      cases hrest : revenueTable rest with
      | none => rw [hrest] at h; exact absurd h (by simp)
      | some wr' =>
        rw [hrest] at h
        simp only [Option.map_some] at h
        injection h with h
        subst h
        rcases List.mem_cons.mp hrow with he | he
        · subst he
          exact revenueRow_shape r row hr
        · exact ih wr' hrest row he

/-- The `SUM` over rows of revenue shape cannot fail: the `REVENUE` text came from
`to_string` and parses. -/
theorem sum_revenue_isSome (group : Table)
    (h : ∀ r ∈ group, ∃ nm q, r = [("N_NAME", nm), ("REVENUE", dtos q)]) :
    (SUM group "REVENUE").isSome = true := by
  rw [SUM, sumAux_some "REVENUE" group 0 ?hp]
  · simp
  case hp =>
    intro r hr _
    obtain ⟨nm, q, he⟩ := h r hr
    subst he
    have hfind : rowFind? [("N_NAME", nm), ("REVENUE", dtos q)] "REVENUE" =
        some (dtos q) := by
      simp [rowFind?]
    rw [hfind]
    simpa using stod?_dtos_isSome q

/-- The aggregation loop succeeds when every group sums, and its output rows
have the revenue shape. -/
theorem aggregateRevenue_some :
    ∀ gs : List (String × Table),
      (∀ p ∈ gs, (SUM p.2 "REVENUE").isSome = true) →
      ∃ out, aggregateRevenue gs = some out ∧
        ∀ row ∈ out, ∃ nm q, row = [("N_NAME", nm), ("REVENUE", dtos q)] := by
  intro gs
  induction gs with
  | nil => intro _; exact ⟨[], rfl, by simp⟩
  | cons p rest ih =>
    intro h
    obtain ⟨name, rows⟩ := p
    obtain ⟨s, hs⟩ := Option.isSome_iff_exists.mp (h (name, rows) (by simp))
    obtain ⟨out, hout, hshape⟩ := ih (fun q hq => h q (by simp [hq]))
    refine ⟨[("N_NAME", name), ("REVENUE", dtos s)] :: out, ?_, ?_⟩
    · simp [aggregateRevenue, hs, hout]
    · intro row hrow
      rcases List.mem_cons.mp hrow with he | he
      · exact ⟨name, s, he⟩
      · exact hshape row he

/-- The result-map loop succeeds on rows of revenue shape. -/
theorem buildResults_isSome :
    ∀ tbl : Table,
      (∀ row ∈ tbl, ∃ nm q, row = [("N_NAME", nm), ("REVENUE", dtos q)]) →
      (buildResults tbl).isSome = true := by
  intro tbl
  induction tbl with
  | nil => intro _; rfl
  | cons row rest ih =>
    intro h
    obtain ⟨nm, q, he⟩ := h row (by simp)
    subst he
    obtain ⟨val, hval⟩ := Option.isSome_iff_exists.mp (stod?_dtos_isSome q)
    have hrest := ih (fun r hr => h r (by simp [hr]))
    obtain ⟨l, hl⟩ := Option.isSome_iff_exists.mp hrest
    have hfind1 : rowFind? [("N_NAME", nm), ("REVENUE", dtos q)] "N_NAME" = some nm := by
      simp [rowFind?]
    have hfind2 : rowFind? [("N_NAME", nm), ("REVENUE", dtos q)] "REVENUE" =
        some (dtos q) := by
      simp [rowFind?]
    unfold buildResults
    rw [hfind1, hfind2]
    simp [hval, hl]

/-- A successful `q5WithRevenue` is the revenue projection of some joined
table. -/
theorem q5WithRevenue_eq_revenueTable (r_name start_date end_date : String)
    (num_threads : Nat)
    (customer_data orders_data lineitem_data supplier_data nation_data
      region_data : Table) (wr : Table)
    (h : q5WithRevenue r_name start_date end_date num_threads customer_data
      orders_data lineitem_data supplier_data nation_data region_data = some wr) :
    ∃ fj, revenueTable fj = some wr := by
  unfold q5WithRevenue at h
  split at h
  · exact absurd h (by simp)
  · dsimp only at h
    split at h
    · exact absurd h (by simp)
    · exact ⟨_, h⟩

/-- C5: with inputs well-formed enough for the revenue stage to materialise
(`hwf`), `executeQuery5` returns failure exactly when the region filter
`WHERE(region, EQUALS("R_NAME", r_name))` yields zero rows; and when the
region filter matches but the date range excludes every order, the call
succeeds with an empty result map. -/
theorem query5_fails_iff_region_empty (r_name start_date end_date : String)
    (num_threads : Nat)
    (customer_data orders_data lineitem_data supplier_data nation_data
      region_data : Table)
    (hwf : (q5WithRevenue r_name start_date end_date num_threads customer_data
      orders_data lineitem_data supplier_data nation_data region_data).isSome
        = true) :
    (executeQuery5 r_name start_date end_date num_threads customer_data
        orders_data lineitem_data supplier_data nation_data region_data = none ↔
      filteredRegion region_data r_name = []) ∧
    (filteredRegion region_data r_name ≠ [] →
      filterDate orders_data start_date end_date = some [] →
      executeQuery5 r_name start_date end_date num_threads customer_data
        orders_data lineitem_data supplier_data nation_data region_data
        = some []) := by
  constructor
  · constructor
    · intro hnone
      by_contra hne
      obtain ⟨wr, hwr⟩ := Option.isSome_iff_exists.mp hwf
      obtain ⟨fj, hfj⟩ := q5WithRevenue_eq_revenueTable r_name start_date end_date
        num_threads customer_data orders_data lineitem_data supplier_data
        nation_data region_data wr hwr
      have hshape := revenueTable_shape fj wr hfj
      have hgroups : ∀ p ∈ GROUP_BY wr "N_NAME", (SUM p.2 "REVENUE").isSome = true := by
        intro p hp
        apply sum_revenue_isSome
        intro r hr
        exact groupFold_forall
          (fun _ row => ∃ nm q, row = [("N_NAME", nm), ("REVENUE", dtos q)])
          "N_NAME" wr [] (by simp)
          (fun row hrow _ _ => hshape row hrow) p hp r hr
      obtain ⟨out, hout, houtshape⟩ := aggregateRevenue_some _ hgroups
      have hbuild := buildResults_isSome out houtshape
      obtain ⟨res, hres⟩ := Option.isSome_iff_exists.mp hbuild
      have hsome : executeQuery5 r_name start_date end_date num_threads
          customer_data orders_data lineitem_data supplier_data nation_data
          region_data = some res := by
        unfold executeQuery5
        rw [if_neg hne, hwr]
        show (match aggregateRevenue (GROUP_BY wr "N_NAME") with
          | none => none
          | some aggregated => buildResults aggregated) = some res
        rw [hout]
        exact hres
      rw [hsome] at hnone
      exact absurd hnone (by simp)
    · intro hempty
      unfold executeQuery5
      rw [if_pos hempty]
  · intro hne hdate
    have hq5 : q5WithRevenue r_name start_date end_date num_threads customer_data
        orders_data lineitem_data supplier_data nation_data region_data
        = some [] := by
      unfold q5WithRevenue
      rw [hdate]
      simp only [innerJoinHash_nil_right, innerJoinHash_nil_left]
      rfl
    unfold executeQuery5
    rw [if_neg hne, hq5]
    rfl

/-- Witness for C5: a region table matching `"ASIA"` with every other table
empty — the pipeline succeeds with an empty result map; the failure iff holds
at the same input. -/
theorem query5_fails_iff_region_empty_witness :
    (executeQuery5 "ASIA" "1994-01-01" "1995-01-01" 1 [] [] [] [] []
        [[("R_NAME", "ASIA"), ("R_REGIONKEY", "1")]] = none ↔
      filteredRegion [[("R_NAME", "ASIA"), ("R_REGIONKEY", "1")]] "ASIA" = []) ∧
    (filteredRegion [[("R_NAME", "ASIA"), ("R_REGIONKEY", "1")]] "ASIA" ≠ [] →
      filterDate [] "1994-01-01" "1995-01-01" = some [] →
      executeQuery5 "ASIA" "1994-01-01" "1995-01-01" 1 [] [] [] [] []
        [[("R_NAME", "ASIA"), ("R_REGIONKEY", "1")]] = some []) :=
  query5_fails_iff_region_empty "ASIA" "1994-01-01" "1995-01-01" 1
    [] [] [] [] [] [[("R_NAME", "ASIA"), ("R_REGIONKEY", "1")]] (by decide)

end SQLEngine
